import Mathlib

/-!
Verification of the cubos ECS core (World, EntityManager, ComponentManager,
ResourceManager, Query engine, ConstructibleTrait) against its specification.

The World operations (create, add, remove, has) are translated from
src/core/include/cubos/core/ecs/world.hpp.  The managers they delegate to
(EntityManager, ComponentManager, ResourceManager), together with destroy,
pack/unpack and the query engine, are not part of the provided sources and are
modelled from the specification, as noted on each definition.

Component values are abstracted as natural numbers; component type identifiers
are natural numbers (the external type-identity service of the spec).  Since
World::create in world.hpp always sets mask bit 0 (the sentinel 0 in the ids
array), component identifiers are taken to start at 1, bit 0 acting as the
liveness marker bit.
-/

namespace Cubos

/-! ## Component storage: an association list from entity index to value. -/

/-- A component storage: mapping from entity index to component value.
Modelled from the spec: per-component-type container keyed by entity index
with add/get/remove/has. -/
def Storage : Type := List (Nat × Nat)

instance : DecidableEq Storage := by
  unfold Storage
  infer_instance

/-- Lookup of an entity index in a storage. -/
def storageGet : Storage → Nat → Option Nat
  | [], _ => none
  | p :: s, i => if p.1 = i then some p.2 else storageGet s i

/-- Remove an entity index from a storage. -/
def storageErase : Storage → Nat → Storage
  | [], _ => []
  | p :: s, i => if p.1 = i then storageErase s i else p :: storageErase s i

/-- Insert or overwrite the value for an entity index. -/
def storageSet (s : Storage) (i v : Nat) : Storage :=
  (i, v) :: storageErase s i

theorem storageGet_erase (s : Storage) (i j : Nat) :
    storageGet (storageErase s i) j = if j = i then none else storageGet s j := by
  induction s with
  | nil => simp [storageErase, storageGet]
  | cons p s ih =>
    simp only [storageErase]
    by_cases hp : p.1 = i
    · rw [if_pos hp, ih]
      by_cases hj : j = i
      · simp [hj]
      · have hpj : p.1 ≠ j := by omega
        simp [storageGet, hj, hpj]
    · rw [if_neg hp]
      by_cases hpj : p.1 = j
      · have hj : ¬j = i := by omega
        simp [storageGet, hpj, hj]
      · simp [storageGet, hpj, ih]

theorem storageGet_set (s : Storage) (i v j : Nat) :
    storageGet (storageSet s i v) j = if j = i then some v else storageGet s j := by
  by_cases hj : j = i
  · simp [storageSet, storageGet, hj]
  · have hij : i ≠ j := fun h => hj h.symm
    simp [storageSet, storageGet, storageGet_erase, hj, hij]

/-! ## Component manager: association list from component id to its storage.
Modelled from the spec: a registry of one type-erased storage per registered
component type.  The component id plays the role of getID of the type. -/

/-- The component manager: mapping from component type id to its storage. -/
def ComponentManager : Type := List (Nat × Storage)

instance : DecidableEq ComponentManager := by
  unfold ComponentManager
  infer_instance

/-- Find the storage registered for a component id, if any. -/
def cmFind : ComponentManager → Nat → Option Storage
  | [], _ => none
  | p :: cm, t => if p.1 = t then some p.2 else cmFind cm t

/-- Remove the entry for a component id. -/
def cmErase : ComponentManager → Nat → ComponentManager
  | [], _ => []
  | p :: cm, t => if p.1 = t then cmErase cm t else p :: cmErase cm t

/-- The storage for a component id (empty when not yet registered,
matching the lazy registration of getID described by the spec). -/
def cmStorage (cm : ComponentManager) (t : Nat) : Storage :=
  (cmFind cm t).getD []

/-- Replace the storage for a component id. -/
def cmSet (cm : ComponentManager) (t : Nat) (s : Storage) : ComponentManager :=
  (t, s) :: cmErase cm t

/-- ComponentManager::add: insert or overwrite the value of component t for
entity index i. -/
def cmAdd (cm : ComponentManager) (t i v : Nat) : ComponentManager :=
  cmSet cm t (storageSet (cmStorage cm t) i v)

/-- ComponentManager::remove: erase the value of component t for entity
index i. -/
def cmRemove (cm : ComponentManager) (t i : Nat) : ComponentManager :=
  cmSet cm t (storageErase (cmStorage cm t) i)

/-- Ask every storage to remove entity index i (used by World::destroy per
the spec: all component storages asked to remove that index). -/
def cmRemoveAll (cm : ComponentManager) (i : Nat) : ComponentManager :=
  cm.map (fun p => (p.1, storageErase p.2 i))

/-- Whether component t is present for entity index i. -/
def cmHas (cm : ComponentManager) (t i : Nat) : Bool :=
  (storageGet (cmStorage cm t) i).isSome

/-- The stored value of component t for entity index i, if present. -/
def cmGet (cm : ComponentManager) (t i : Nat) : Option Nat :=
  storageGet (cmStorage cm t) i

theorem cmFind_erase (cm : ComponentManager) (t u : Nat) :
    cmFind (cmErase cm t) u = if u = t then none else cmFind cm u := by
  induction cm with
  | nil => simp [cmErase, cmFind]
  | cons p cm ih =>
    simp only [cmErase]
    by_cases hp : p.1 = t
    · rw [if_pos hp, ih]
      by_cases hu : u = t
      · simp [hu]
      · have hpu : p.1 ≠ u := by omega
        simp [cmFind, hu, hpu]
    · rw [if_neg hp]
      by_cases hpu : p.1 = u
      · have hu : ¬u = t := by omega
        simp [cmFind, hpu, hu]
      · simp [cmFind, hpu, ih]

theorem cmStorage_set (cm : ComponentManager) (t : Nat) (s : Storage) (u : Nat) :
    cmStorage (cmSet cm t s) u = if u = t then s else cmStorage cm u := by
  by_cases hu : u = t
  · simp [cmSet, cmStorage, cmFind, hu]
  · have htu : t ≠ u := fun h => hu h.symm
    simp [cmSet, cmStorage, cmFind, cmFind_erase, hu, htu]

theorem cmGet_add (cm : ComponentManager) (t i v u j : Nat) :
    cmGet (cmAdd cm t i v) u j =
      if u = t ∧ j = i then some v else cmGet cm u j := by
  by_cases hu : u = t
  · by_cases hj : j = i <;>
      simp [cmAdd, cmGet, cmStorage_set, storageGet_set, hu, hj]
  · simp [cmAdd, cmGet, cmStorage_set, hu]

theorem cmGet_remove (cm : ComponentManager) (t i u j : Nat) :
    cmGet (cmRemove cm t i) u j =
      if u = t ∧ j = i then none else cmGet cm u j := by
  by_cases hu : u = t
  · by_cases hj : j = i <;>
      simp [cmRemove, cmGet, cmStorage_set, storageGet_erase, hu, hj]
  · simp [cmRemove, cmGet, cmStorage_set, hu]

theorem cmFind_map_erase (cm : ComponentManager) (i u : Nat) :
    cmFind (cmRemoveAll cm i) u = (cmFind cm u).map (fun s => storageErase s i) := by
  induction cm with
  | nil => simp [cmRemoveAll, cmFind]
  | cons p cm ih =>
    by_cases hu : p.1 = u
    · simp [cmRemoveAll, cmFind, hu]
    · simpa [cmRemoveAll, cmFind, hu] using ih

theorem cmGet_removeAll (cm : ComponentManager) (i u j : Nat) :
    cmGet (cmRemoveAll cm i) u j = if j = i then none else cmGet cm u j := by
  unfold cmGet cmStorage
  rw [cmFind_map_erase]
  cases h : cmFind cm u with
  | none => simp [storageGet, storageErase]
  | some s => simp [storageGet_erase]

theorem cmHas_eq_isSome (cm : ComponentManager) (t i : Nat) :
    cmHas cm t i = (cmGet cm t i).isSome := rfl

/-! ## Entities and the entity manager.
Modelled from the spec: generational indices, per-entity component-membership
bitmasks, and a free list of recycled indices. -/

/-- An entity handle: index plus generation (Entity in entity_manager.hpp). -/
structure Entity where
  index : Nat
  generation : Nat
deriving DecidableEq, Repr

/-- A component membership mask: the set of set bit positions of the
fixed-size bitset Entity::Mask. -/
abbrev Mask := Finset Nat

/-- Modelled from the spec: the entity manager stores one generation and one
mask per allocated index, plus the free list of recycled indices. -/
structure EntityManager where
  generations : List Nat
  masks : List Mask
  free : List Nat
deriving DecidableEq

/-- The current generation stored for an index. -/
def genAt (em : EntityManager) (i : Nat) : Nat :=
  em.generations.getD i 0

/-- The mask stored for an index. -/
def maskAt (em : EntityManager) (i : Nat) : Mask :=
  em.masks.getD i ∅

/-- EntityManager::isValid: the handle generation matches the stored
generation, and the index is in range. -/
def emIsValid (em : EntityManager) (e : Entity) : Bool :=
  decide (e.index < em.generations.length) && decide (genAt em e.index = e.generation)

/-- Modelled from the spec: EntityManager::create allocates an index (reuse
from the free list if non-empty, else grow the backing arrays), sets its
mask, and returns a handle with the current generation of that index. -/
def emCreate (em : EntityManager) (mask : Mask) : Entity × EntityManager :=
  match em.free with
  | i :: rest =>
    (⟨i, genAt em i⟩,
     { em with masks := em.masks.set i mask, free := rest })
  | [] =>
    (⟨em.generations.length, 0⟩,
     { generations := em.generations ++ [0],
       masks := em.masks ++ [mask],
       free := [] })

/-- EntityManager::setMask. -/
def emSetMask (em : EntityManager) (e : Entity) (m : Mask) : EntityManager :=
  { em with masks := em.masks.set e.index m }

/-! ## Resource manager.
Modelled from the spec: a mapping from resource type to a single instance;
registration of an already-registered type is a reported error and a no-op,
leaving the first instance in place.  Resource types and values are
abstracted as natural numbers; the reader/writer lock is out of scope. -/

/-- The resource manager: mapping from resource type id to the instance. -/
def ResourceManager : Type := List (Nat × Nat)

instance : DecidableEq ResourceManager := by
  unfold ResourceManager
  infer_instance

/-- Lookup of a resource instance by type id. -/
def rmFind : ResourceManager → Nat → Option Nat
  | [], _ => none
  | p :: rm, t => if p.1 = t then some p.2 else rmFind rm t

/-- Modelled from the spec: ResourceManager::add constructs exactly one
instance; a duplicate registration is an error and does not replace the
existing instance. -/
def rmAdd (rm : ResourceManager) (t v : Nat) : ResourceManager :=
  if (rmFind rm t).isSome then rm else (t, v) :: rm

/-! ## World: the façade, from world.hpp. -/

/-- The World: entity manager, component manager and resource manager
(world.hpp, members mResourceManager/mEntityManager/mComponentManager). -/
structure World where
  em : EntityManager
  cm : ComponentManager
  rm : ResourceManager
deriving DecidableEq

/-- A world with no entities, no storages and no resources. -/
def World.init : World :=
  ⟨⟨[], [], []⟩, [], []⟩

/-- World::isAlive: delegates to EntityManager validity (spec: alive iff the
stored generation for the index equals the handle generation). -/
def World.isAlive (w : World) (e : Entity) : Bool :=
  emIsValid w.em e

/-- World::create from world.hpp: the ids array starts with the literal 0
sentinel, then the component ids; the mask is the set of all of them, so bit
0 is always set.  Then the entity manager creates the entity and each
component value is added to its storage.  A component is a pair of its
type id and its value. -/
def World.create (w : World) (comps : List (Nat × Nat)) : Entity × World :=
  let ids : List Nat := 0 :: comps.map (fun c => c.1)
  let mask : Mask := ids.foldl (fun m id => insert id m) ∅
  let p := emCreate w.em mask
  let cm := comps.foldl (fun cm c => cmAdd cm c.1 p.1.index c.2) w.cm
  (p.1, ⟨p.2, cm, w.rm⟩)

/-- World::add from world.hpp: if the entity is invalid, report an error and
return unchanged; otherwise fetch the mask and, per component, set its id bit
and add its value to the component manager, finally storing the mask back. -/
def World.add (w : World) (e : Entity) (comps : List (Nat × Nat)) : World :=
  if emIsValid w.em e then
    let p := comps.foldl
      (fun (p : Mask × ComponentManager) c =>
        (insert c.1 p.1, cmAdd p.2 c.1 e.index c.2))
      (maskAt w.em e.index, w.cm)
    ⟨emSetMask w.em e p.1, p.2, w.rm⟩
  else w

/-- World::remove from world.hpp: if the entity is invalid, report an error
and return unchanged; otherwise fetch the mask and, per component type, clear
its id bit and remove it from the component manager, finally storing the mask
back. -/
def World.remove (w : World) (e : Entity) (tids : List Nat) : World :=
  if emIsValid w.em e then
    let p := tids.foldl
      (fun (p : Mask × ComponentManager) t =>
        (p.1.erase t, cmRemove p.2 t e.index))
      (maskAt w.em e.index, w.cm)
    ⟨emSetMask w.em e p.1, p.2, w.rm⟩
  else w

/-- World::has from world.hpp: false with a reported error for an invalid
entity, otherwise the test of the component id bit of the entity mask. -/
def World.has (w : World) (e : Entity) (t : Nat) : Bool :=
  if emIsValid w.em e then
    decide (t ∈ maskAt w.em e.index)
  else false

/-- World::destroy, modelled from the spec: no-op on a dead entity;
otherwise the mask is cleared, the generation of the index is incremented,
the index is pushed onto the free list, and every component storage is asked
to remove that index. -/
def World.destroy (w : World) (e : Entity) : World :=
  if emIsValid w.em e then
    ⟨⟨w.em.generations.set e.index (genAt w.em e.index + 1),
      w.em.masks.set e.index ∅,
      e.index :: w.em.free⟩,
     cmRemoveAll w.cm e.index, w.rm⟩
  else w

/-- World::registerResource from world.hpp: forwards to ResourceManager::add. -/
def World.registerResource (w : World) (t v : Nat) : World :=
  ⟨w.em, w.cm, rmAdd w.rm t v⟩

/-- World::read on a resource, modelled from the spec: yields the registered
instance of the type (the reader lock is out of scope). -/
def World.readResource (w : World) (t : Nat) : Option Nat :=
  rmFind w.rm t

/-- World::write on a resource, modelled from the spec: yields the same
registered instance, for mutation (the writer lock is out of scope). -/
def World.writeResource (w : World) (t : Nat) : Option Nat :=
  rmFind w.rm t

/-! ## Helper lemmas about list access. -/

theorem getD_set_self {α : Type} (l : List α) (i : Nat) (a d : α) (h : i < l.length) :
    (l.set i a).getD i d = a := by
  simp [List.getD_eq_getElem?_getD, List.getElem?_set_self h]

theorem getD_set_ne {α : Type} (l : List α) (i j : Nat) (a d : α) (h : i ≠ j) :
    (l.set i a).getD j d = l.getD j d := by
  simp [List.getD_eq_getElem?_getD, List.getElem?_set_ne h]

theorem getD_append_lt {α : Type} (l l2 : List α) (i : Nat) (d : α) (h : i < l.length) :
    (l ++ l2).getD i d = l.getD i d := by
  simp [List.getD_eq_getElem?_getD, List.getElem?_append, h]

theorem getD_append_self {α : Type} (l : List α) (a d : α) :
    (l ++ [a]).getD l.length d = a := by
  simp [List.getD_eq_getElem?_getD, List.getElem?_append_right (le_refl l.length)]

theorem getD_of_le {α : Type} (l : List α) (i : Nat) (d : α) (h : l.length ≤ i) :
    l.getD i d = d := by
  simp [List.getD_eq_getElem?_getD, List.getElem?_eq_none h]

/-! ## Helper lemmas about the folds used by World::create/add/remove. -/

theorem foldl_pair {α β γ : Type} (f : α → γ → α) (g : β → γ → β)
    (l : List γ) (a : α) (b : β) :
    l.foldl (fun p c => (f p.1 c, g p.2 c)) (a, b) = (l.foldl f a, l.foldl g b) := by
  induction l generalizing a b with
  | nil => rfl
  | cons c l ih => simp [List.foldl, ih]

theorem mem_foldl_insert (l : List Nat) (m : Mask) (t : Nat) :
    t ∈ l.foldl (fun m i => insert i m) m ↔ t ∈ l ∨ t ∈ m := by
  induction l generalizing m with
  | nil => simp
  | cons i l ih =>
    simp only [List.foldl, ih, Finset.mem_insert, List.mem_cons]
    tauto

theorem mem_foldl_insert_comps (comps : List (Nat × Nat)) (m : Mask) (t : Nat) :
    t ∈ comps.foldl (fun m c => insert c.1 m) m ↔
      t ∈ comps.map (fun c => c.1) ∨ t ∈ m := by
  induction comps generalizing m with
  | nil => simp
  | cons c l ih =>
    simp only [List.foldl, ih, Finset.mem_insert, List.map, List.mem_cons]
    tauto

theorem mem_foldl_erase (l : List Nat) (m : Mask) (t : Nat) :
    t ∈ l.foldl (fun m i => m.erase i) m ↔ t ∉ l ∧ t ∈ m := by
  induction l generalizing m with
  | nil => simp
  | cons i l ih =>
    simp only [List.foldl, ih, Finset.mem_erase, List.mem_cons]
    tauto

theorem cmHas_add (cm : ComponentManager) (t i v u j : Nat) :
    cmHas (cmAdd cm t i v) u j =
      if u = t ∧ j = i then true else cmHas cm u j := by
  by_cases h : u = t ∧ j = i <;> simp [cmHas_eq_isSome, cmGet_add, h]

theorem cmHas_remove (cm : ComponentManager) (t i u j : Nat) :
    cmHas (cmRemove cm t i) u j =
      if u = t ∧ j = i then false else cmHas cm u j := by
  by_cases h : u = t ∧ j = i <;> simp [cmHas_eq_isSome, cmGet_remove, h]

theorem cmHas_removeAll (cm : ComponentManager) (i u j : Nat) :
    cmHas (cmRemoveAll cm i) u j = if j = i then false else cmHas cm u j := by
  by_cases h : j = i <;> simp [cmHas_eq_isSome, cmGet_removeAll, h]

theorem cmHas_foldl_add (comps : List (Nat × Nat)) (cm : ComponentManager)
    (i u j : Nat) :
    cmHas (comps.foldl (fun cm c => cmAdd cm c.1 i c.2) cm) u j =
      if j = i then (decide (u ∈ comps.map (fun c => c.1)) || cmHas cm u j)
      else cmHas cm u j := by
  induction comps generalizing cm with
  | nil => by_cases h : j = i <;> simp [h]
  | cons c l ih =>
    simp only [List.foldl, ih, cmHas_add, List.map, List.mem_cons]
    by_cases hj : j = i
    · by_cases hu : u = c.1 <;> simp [hj, hu]
    · simp [hj]

theorem cmHas_foldl_remove (tids : List Nat) (cm : ComponentManager)
    (i u j : Nat) :
    cmHas (tids.foldl (fun cm t => cmRemove cm t i) cm) u j =
      if j = i ∧ u ∈ tids then false else cmHas cm u j := by
  induction tids generalizing cm with
  | nil => simp
  | cons t l ih =>
    simp only [List.foldl, ih, cmHas_remove, List.mem_cons]
    by_cases hj : j = i
    · by_cases hu : u = t
      · simp [hj, hu]
      · by_cases hl : u ∈ l <;> simp [hj, hu, hl]
    · simp [hj]

/-! ## Sequences of World operations.
An operation refers to an entity through the position of its handle in the
log of handles returned by create, mirroring client code that only uses
handles it received from the World. -/

/-- One World operation. -/
inductive Op where
  | create (comps : List (Nat × Nat))
  | add (k : Nat) (comps : List (Nat × Nat))
  | remove (k : Nat) (tids : List Nat)
  | destroy (k : Nat)
deriving DecidableEq, Repr

/-- Execute one operation on a world paired with the log of created handles. -/
def step (s : World × List Entity) (op : Op) : World × List Entity :=
  match op with
  | .create comps =>
    let p := s.1.create comps
    (p.2, s.2 ++ [p.1])
  | .add k comps =>
    match s.2[k]? with
    | some e => (s.1.add e comps, s.2)
    | none => s
  | .remove k tids =>
    match s.2[k]? with
    | some e => (s.1.remove e tids, s.2)
    | none => s
  | .destroy k =>
    match s.2[k]? with
    | some e => (s.1.destroy e, s.2)
    | none => s

/-- Execute a sequence of operations starting from the empty world. -/
def run (ops : List Op) : World × List Entity :=
  ops.foldl step (World.init, [])

/-! ## The mask/storage invariant. -/

/-- The reachability invariant of a world together with its log of handed-out
entity handles: masks and storages agree on every registered component id,
freed indices are fully cleaned, and logged handles for freed indices are
stale. -/
structure WInv (w : World) (log : List Entity) : Prop where
  len_eq : w.em.masks.length = w.em.generations.length
  free_lt : ∀ i ∈ w.em.free, i < w.em.generations.length
  free_nodup : w.em.free.Nodup
  free_mask : ∀ i ∈ w.em.free, maskAt w.em i = ∅
  free_store : ∀ i ∈ w.em.free, ∀ t, cmHas w.cm t i = false
  agree : ∀ i t, 1 ≤ t → (t ∈ maskAt w.em i ↔ cmHas w.cm t i = true)
  high_store : ∀ i, w.em.generations.length ≤ i → ∀ t, cmHas w.cm t i = false
  log_lt : ∀ e ∈ log, e.index < w.em.generations.length
  log_gen : ∀ e ∈ log, e.generation ≤ genAt w.em e.index
  log_free : ∀ e ∈ log, e.index ∈ w.em.free → e.generation < genAt w.em e.index

theorem winv_init : WInv World.init [] := by
  constructor <;>
    simp [World.init, cmHas, cmStorage, cmFind, storageGet, maskAt]

theorem winv_create (w : World) (log : List Entity) (comps : List (Nat × Nat))
    (hw : WInv w log) :
    WInv (w.create comps).2 (log ++ [(w.create comps).1]) := by
  obtain ⟨len_eq, free_lt, free_nodup, free_mask, free_store, agree,
    high_store, log_lt, log_gen, log_free⟩ := hw
  have hmask : ∀ t : Nat,
      t ∈ (0 :: comps.map (fun c => c.1)).foldl (fun m id => insert id m) (∅ : Mask) ↔
        t = 0 ∨ t ∈ comps.map (fun c => c.1) := by
    intro t
    rw [mem_foldl_insert]
    simp
  cases hfree : w.em.free with
  | nil =>
    simp only [World.create, emCreate, hfree]
    constructor
    case len_eq => simp [len_eq]
    case free_lt => simp
    case free_nodup => simp
    case free_mask => simp
    case free_store => simp
    case agree =>
      intro i t ht
      rcases Nat.lt_trichotomy i w.em.generations.length with hi | hi | hi
      · rw [show maskAt ⟨w.em.generations ++ [0],
            w.em.masks ++ [(0 :: comps.map (fun c => c.1)).foldl (fun m id => insert id m) ∅],
            []⟩ i = maskAt w.em i from
          getD_append_lt _ _ _ _ (len_eq ▸ hi)]
        rw [cmHas_foldl_add, if_neg (by omega)]
        exact agree i t ht
      · subst hi
        rw [show maskAt ⟨w.em.generations ++ [0],
            w.em.masks ++ [(0 :: comps.map (fun c => c.1)).foldl (fun m id => insert id m) ∅],
            []⟩ w.em.generations.length =
            (0 :: comps.map (fun c => c.1)).foldl (fun m id => insert id m) ∅ from by
          rw [maskAt]
          rw [show w.em.generations.length = w.em.masks.length from len_eq.symm]
          exact getD_append_self _ _ _]
        rw [hmask, cmHas_foldl_add, if_pos rfl,
          high_store w.em.generations.length (le_refl _) t]
        simp
        omega
      · rw [show maskAt ⟨w.em.generations ++ [0],
            w.em.masks ++ [(0 :: comps.map (fun c => c.1)).foldl (fun m id => insert id m) ∅],
            []⟩ i = ∅ from
          getD_of_le _ _ _ (by simp; omega)]
        rw [cmHas_foldl_add, if_neg (by omega),
          high_store i (by omega) t]
        simp
    case high_store =>
      intro i hi t
      simp only [List.length_append, List.length_singleton] at hi
      rw [cmHas_foldl_add, if_neg (by omega)]
      exact high_store i (by omega) t
    case log_lt =>
      intro e he
      rcases List.mem_append.mp he with he | he
      · have := log_lt e he
        simp only [List.length_append, List.length_singleton]
        omega
      · simp only [List.mem_singleton] at he
        subst he
        simp
    case log_gen =>
      intro e he
      rcases List.mem_append.mp he with he | he
      · have := log_gen e he
        rw [show genAt ⟨w.em.generations ++ [0],
            w.em.masks ++ [(0 :: comps.map (fun c => c.1)).foldl (fun m id => insert id m) ∅],
            []⟩ e.index = genAt w.em e.index from
          getD_append_lt _ _ _ _ (log_lt e he)]
        exact this
      · simp only [List.mem_singleton] at he
        subst he
        simp
    case log_free =>
      intro e _ he
      simp at he
  | cons i0 rest =>
    have hi0 : i0 < w.em.generations.length :=
      free_lt i0 (by rw [hfree]; exact List.mem_cons_self _ _)
    have hnodup := free_nodup
    rw [hfree, List.nodup_cons] at hnodup
    obtain ⟨hi0rest, hrestnodup⟩ := hnodup
    simp only [World.create, emCreate, hfree]
    constructor
    case len_eq => simp [len_eq]
    case free_lt =>
      intro j hj
      exact free_lt j (by rw [hfree]; exact List.mem_cons_of_mem _ hj)
    case free_nodup => exact hrestnodup
    case free_mask =>
      intro j hj
      have hji : i0 ≠ j := fun h => hi0rest (h ▸ hj)
      rw [show maskAt ⟨w.em.generations,
          w.em.masks.set i0 ((0 :: comps.map (fun c => c.1)).foldl (fun m id => insert id m) ∅),
          rest⟩ j = maskAt w.em j from getD_set_ne _ _ _ _ _ hji]
      exact free_mask j (by rw [hfree]; exact List.mem_cons_of_mem _ hj)
    case free_store =>
      intro j hj t
      have hji : j ≠ i0 := fun h => hi0rest (h ▸ hj)
      rw [cmHas_foldl_add, if_neg (by simpa using hji)]
      exact free_store j (by rw [hfree]; exact List.mem_cons_of_mem _ hj) t
    case agree =>
      intro i t ht
      by_cases hi : i = i0
      · subst hi
        rw [show maskAt ⟨w.em.generations,
            w.em.masks.set i ((0 :: comps.map (fun c => c.1)).foldl (fun m id => insert id m) ∅),
            rest⟩ i =
            (0 :: comps.map (fun c => c.1)).foldl (fun m id => insert id m) ∅ from
          getD_set_self _ _ _ _ (len_eq ▸ hi0)]
        rw [hmask, cmHas_foldl_add, if_pos rfl,
          free_store i (by rw [hfree]; exact List.mem_cons_self _ _) t]
        simp
        omega
      · rw [show maskAt ⟨w.em.generations,
            w.em.masks.set i0 ((0 :: comps.map (fun c => c.1)).foldl (fun m id => insert id m) ∅),
            rest⟩ i = maskAt w.em i from getD_set_ne _ _ _ _ _ (fun h => hi h.symm)]
        rw [cmHas_foldl_add, if_neg hi]
        exact agree i t ht
    case high_store =>
      intro i hi t
      have hi2 : w.em.generations.length ≤ i := hi
      rw [cmHas_foldl_add, if_neg (by omega)]
      exact high_store i hi2 t
    case log_lt =>
      intro e he
      rcases List.mem_append.mp he with he | he
      · exact log_lt e he
      · simp only [List.mem_singleton] at he
        subst he
        exact hi0
    case log_gen =>
      intro e he
      rcases List.mem_append.mp he with he | he
      · exact log_gen e he
      · simp only [List.mem_singleton] at he
        subst he
        exact le_refl _
    case log_free =>
      intro e he hef
      rcases List.mem_append.mp he with he | he
      · exact log_free e he (by rw [hfree]; exact List.mem_cons_of_mem _ hef)
      · simp only [List.mem_singleton] at he
        subst he
        exact absurd hef hi0rest

theorem add_foldl_split (comps : List (Nat × Nat)) (m : Mask)
    (cm : ComponentManager) (i : Nat) :
    comps.foldl (fun p c => (insert c.1 p.1, cmAdd p.2 c.1 i c.2)) (m, cm) =
      (comps.foldl (fun m c => insert c.1 m) m,
       comps.foldl (fun cm c => cmAdd cm c.1 i c.2) cm) :=
  foldl_pair (fun m c => insert c.1 m) (fun cm c => cmAdd cm c.1 i c.2) comps m cm

theorem remove_foldl_split (tids : List Nat) (m : Mask)
    (cm : ComponentManager) (i : Nat) :
    tids.foldl (fun p t => (p.1.erase t, cmRemove p.2 t i)) (m, cm) =
      (tids.foldl (fun m t => m.erase t) m,
       tids.foldl (fun cm t => cmRemove cm t i) cm) :=
  foldl_pair (fun m t => m.erase t) (fun cm t => cmRemove cm t i) tids m cm

theorem emIsValid_iff (em : EntityManager) (e : Entity) :
    emIsValid em e = true ↔
      e.index < em.generations.length ∧ genAt em e.index = e.generation := by
  simp [emIsValid]

theorem winv_valid_not_free (w : World) (log : List Entity) (e : Entity)
    (hw : WInv w log) (he : e ∈ log) (hv : emIsValid w.em e = true) :
    e.index ∉ w.em.free := by
  intro hf
  have h1 := hw.log_free e he hf
  have h2 := ((emIsValid_iff _ _).mp hv).2
  omega

theorem winv_add (w : World) (log : List Entity) (e : Entity)
    (comps : List (Nat × Nat)) (hw : WInv w log) (he : e ∈ log) :
    WInv (w.add e comps) log := by
  cases hv : emIsValid w.em e with
  | false => simpa only [World.add, hv, Bool.false_eq_true, if_false] using hw
  | true =>
    have hnf : e.index ∉ w.em.free := winv_valid_not_free w log e hw he hv
    obtain ⟨hlt, _⟩ := (emIsValid_iff _ _).mp hv
    obtain ⟨len_eq, free_lt, free_nodup, free_mask, free_store, agree,
      high_store, log_lt, log_gen, log_free⟩ := hw
    simp only [World.add, hv, if_true]
    rw [add_foldl_split]
    constructor
    case len_eq => simp [emSetMask, len_eq]
    case free_lt => exact free_lt
    case free_nodup => exact free_nodup
    case free_mask =>
      intro j hj
      have hji : e.index ≠ j := fun h => hnf (h ▸ hj)
      rw [show maskAt (emSetMask w.em e
            (comps.foldl (fun m c => insert c.1 m) (maskAt w.em e.index))) j =
          maskAt w.em j from getD_set_ne _ _ _ _ _ hji]
      exact free_mask j hj
    case free_store =>
      intro j hj t
      have hji : j ≠ e.index := fun h => hnf (h ▸ hj)
      rw [cmHas_foldl_add, if_neg (by simpa using hji)]
      exact free_store j hj t
    case agree =>
      intro i t ht
      by_cases hi : i = e.index
      · subst hi
        rw [show maskAt (emSetMask w.em e
              (comps.foldl (fun m c => insert c.1 m) (maskAt w.em e.index))) e.index =
            comps.foldl (fun m c => insert c.1 m) (maskAt w.em e.index) from
          getD_set_self _ _ _ _ (len_eq ▸ hlt)]
        rw [mem_foldl_insert_comps, cmHas_foldl_add, if_pos rfl]
        rw [agree e.index t ht]
        cases cmHas w.cm t e.index <;>
          cases hmem : decide (t ∈ comps.map (fun c => c.1)) <;>
          simp_all
      · rw [show maskAt (emSetMask w.em e
              (comps.foldl (fun m c => insert c.1 m) (maskAt w.em e.index))) i =
            maskAt w.em i from getD_set_ne _ _ _ _ _ (fun h => hi h.symm)]
        rw [cmHas_foldl_add, if_neg hi]
        exact agree i t ht
    case high_store =>
      intro i hi t
      have hi2 : w.em.generations.length ≤ i := hi
      rw [cmHas_foldl_add, if_neg (by omega)]
      exact high_store i hi2 t
    case log_lt => exact log_lt
    case log_gen => exact log_gen
    case log_free => exact log_free

theorem winv_remove (w : World) (log : List Entity) (e : Entity)
    (tids : List Nat) (hw : WInv w log) (he : e ∈ log) :
    WInv (w.remove e tids) log := by
  cases hv : emIsValid w.em e with
  | false => simpa only [World.remove, hv, Bool.false_eq_true, if_false] using hw
  | true =>
    have hnf : e.index ∉ w.em.free := winv_valid_not_free w log e hw he hv
    obtain ⟨hlt, _⟩ := (emIsValid_iff _ _).mp hv
    obtain ⟨len_eq, free_lt, free_nodup, free_mask, free_store, agree,
      high_store, log_lt, log_gen, log_free⟩ := hw
    simp only [World.remove, hv, if_true]
    rw [remove_foldl_split]
    constructor
    case len_eq => simp [emSetMask, len_eq]
    case free_lt => exact free_lt
    case free_nodup => exact free_nodup
    case free_mask =>
      intro j hj
      have hji : e.index ≠ j := fun h => hnf (h ▸ hj)
      rw [show maskAt (emSetMask w.em e
            (tids.foldl (fun m t => m.erase t) (maskAt w.em e.index))) j =
          maskAt w.em j from getD_set_ne _ _ _ _ _ hji]
      exact free_mask j hj
    case free_store =>
      intro j hj t
      rw [cmHas_foldl_remove]
      by_cases h : j = e.index ∧ t ∈ tids
      · simp [h]
      · rw [if_neg h]
        exact free_store j hj t
    case agree =>
      intro i t ht
      by_cases hi : i = e.index
      · subst hi
        rw [show maskAt (emSetMask w.em e
              (tids.foldl (fun m t => m.erase t) (maskAt w.em e.index))) e.index =
            tids.foldl (fun m t => m.erase t) (maskAt w.em e.index) from
          getD_set_self _ _ _ _ (len_eq ▸ hlt)]
        rw [mem_foldl_erase, cmHas_foldl_remove]
        rw [agree e.index t ht]
        by_cases hmem : t ∈ tids
        · simp [hmem]
        · simp [hmem]
      · rw [show maskAt (emSetMask w.em e
              (tids.foldl (fun m t => m.erase t) (maskAt w.em e.index))) i =
            maskAt w.em i from getD_set_ne _ _ _ _ _ (fun h => hi h.symm)]
        rw [cmHas_foldl_remove, if_neg (by tauto)]
        exact agree i t ht
    case high_store =>
      intro i hi t
      have hi2 : w.em.generations.length ≤ i := hi
      rw [cmHas_foldl_remove, if_neg (by
        intro h
        exact absurd h.1 (by omega))]
      exact high_store i hi2 t
    case log_lt => exact log_lt
    case log_gen => exact log_gen
    case log_free => exact log_free

theorem winv_destroy (w : World) (log : List Entity) (e : Entity)
    (hw : WInv w log) (he : e ∈ log) :
    WInv (w.destroy e) log := by
  cases hv : emIsValid w.em e with
  | false => simpa only [World.destroy, hv, Bool.false_eq_true, if_false] using hw
  | true =>
    have hnf : e.index ∉ w.em.free := winv_valid_not_free w log e hw he hv
    obtain ⟨hlt, hgen⟩ := (emIsValid_iff _ _).mp hv
    obtain ⟨len_eq, free_lt, free_nodup, free_mask, free_store, agree,
      high_store, log_lt, log_gen, log_free⟩ := hw
    simp only [World.destroy, hv, if_true]
    constructor
    case len_eq => simp [len_eq]
    case free_lt =>
      intro j hj
      rcases List.mem_cons.mp hj with hj | hj
      · subst hj
        simpa using hlt
      · have := free_lt j hj
        simpa using this
    case free_nodup => exact List.nodup_cons.mpr ⟨hnf, free_nodup⟩
    case free_mask =>
      intro j hj
      rcases List.mem_cons.mp hj with hj | hj
      · subst hj
        exact getD_set_self _ _ _ _ (len_eq ▸ hlt)
      · have hji : e.index ≠ j := fun h => hnf (h ▸ hj)
        rw [show maskAt ⟨w.em.generations.set e.index (genAt w.em e.index + 1),
              w.em.masks.set e.index ∅, e.index :: w.em.free⟩ j =
            maskAt w.em j from getD_set_ne _ _ _ _ _ hji]
        exact free_mask j hj
    case free_store =>
      intro j hj t
      rw [cmHas_removeAll]
      rcases List.mem_cons.mp hj with hj | hj
      · simp [hj]
      · have hji : j ≠ e.index := fun h => hnf (h ▸ hj)
        rw [if_neg hji]
        exact free_store j hj t
    case agree =>
      intro i t ht
      by_cases hi : i = e.index
      · subst hi
        rw [show maskAt ⟨w.em.generations.set e.index (genAt w.em e.index + 1),
              w.em.masks.set e.index ∅, e.index :: w.em.free⟩ e.index = ∅ from
            getD_set_self _ _ _ _ (len_eq ▸ hlt)]
        rw [cmHas_removeAll, if_pos rfl]
        simp
      · rw [show maskAt ⟨w.em.generations.set e.index (genAt w.em e.index + 1),
              w.em.masks.set e.index ∅, e.index :: w.em.free⟩ i =
            maskAt w.em i from getD_set_ne _ _ _ _ _ (fun h => hi h.symm)]
        rw [cmHas_removeAll, if_neg hi]
        exact agree i t ht
    case high_store =>
      intro i hi t
      have hi2 : w.em.generations.length ≤ i := by simpa using hi
      rw [cmHas_removeAll, if_neg (by omega)]
      exact high_store i hi2 t
    case log_lt =>
      intro e2 he2
      have := log_lt e2 he2
      simpa using this
    case log_gen =>
      intro e2 he2
      by_cases hi : e2.index = e.index
      · rw [show genAt ⟨w.em.generations.set e.index (genAt w.em e.index + 1),
              w.em.masks.set e.index ∅, e.index :: w.em.free⟩ e2.index =
            genAt w.em e.index + 1 from by
          rw [genAt, hi]
          exact getD_set_self _ _ _ _ hlt]
        have := log_gen e2 he2
        rw [hi] at this
        omega
      · rw [show genAt ⟨w.em.generations.set e.index (genAt w.em e.index + 1),
              w.em.masks.set e.index ∅, e.index :: w.em.free⟩ e2.index =
            genAt w.em e2.index from getD_set_ne _ _ _ _ _ (fun h => hi h.symm)]
        exact log_gen e2 he2
    case log_free =>
      intro e2 he2 hf2
      by_cases hi : e2.index = e.index
      · rw [show genAt ⟨w.em.generations.set e.index (genAt w.em e.index + 1),
              w.em.masks.set e.index ∅, e.index :: w.em.free⟩ e2.index =
            genAt w.em e.index + 1 from by
          rw [genAt, hi]
          exact getD_set_self _ _ _ _ hlt]
        have := log_gen e2 he2
        rw [hi] at this
        omega
      · have hf3 : e2.index ∈ w.em.free := by
          rcases List.mem_cons.mp hf2 with h | h
          · exact absurd h hi
          · exact h
        rw [show genAt ⟨w.em.generations.set e.index (genAt w.em e.index + 1),
              w.em.masks.set e.index ∅, e.index :: w.em.free⟩ e2.index =
            genAt w.em e2.index from getD_set_ne _ _ _ _ _ (fun h => hi h.symm)]
        exact log_free e2 he2 hf3

/-- Executing one operation preserves the invariant. -/
theorem winv_step (s : World × List Entity) (op : Op) (hw : WInv s.1 s.2) :
    WInv (step s op).1 (step s op).2 := by
  cases op with
  | create comps => exact winv_create s.1 s.2 comps hw
  | add k comps =>
    simp only [step]
    cases hk : s.2[k]? with
    | none => exact hw
    | some e => exact winv_add s.1 s.2 e comps hw (List.getElem?_mem hk)
  | remove k tids =>
    simp only [step]
    cases hk : s.2[k]? with
    | none => exact hw
    | some e => exact winv_remove s.1 s.2 e tids hw (List.getElem?_mem hk)
  | destroy k =>
    simp only [step]
    cases hk : s.2[k]? with
    | none => exact hw
    | some e => exact winv_destroy s.1 s.2 e hw (List.getElem?_mem hk)

theorem winv_foldl (ops : List Op) (s : World × List Entity) (hw : WInv s.1 s.2) :
    WInv (ops.foldl step s).1 (ops.foldl step s).2 := by
  induction ops generalizing s with
  | nil => exact hw
  | cons op ops ih => exact ih (step s op) (winv_step s op hw)

/-- The invariant holds of every world reachable by a sequence of operations. -/
theorem winv_run (ops : List Op) : WInv (run ops).1 (run ops).2 :=
  winv_foldl ops (World.init, []) winv_init

/-! ## The query engine.
Modelled from the spec: iteration walks live entities, in index order, and an
entity matches iff its mask contains the whole required mask and is disjoint
from the excluded mask. -/

/-- The live entities of the entity manager, in index order: the allocated
indices that are not on the free list, each paired with its current
generation. -/
def liveEntities (em : EntityManager) : List Entity :=
  (List.range em.generations.length).filterMap
    (fun i => if i ∈ em.free then none else some ⟨i, genAt em i⟩)

/-- Modelled from the spec: an entity mask matches a query iff
(mask AND required) == required and (mask AND excluded) == 0, intersection
playing the role of bitwise AND on the set of set bits. -/
def queryMatches (required excluded m : Mask) : Bool :=
  decide (m ∩ required = required) && decide (m ∩ excluded = ∅)

/-- Modelled from the spec: a query iteration visits the live entities, in
index order, whose mask matches the required/excluded masks. -/
def queryRun (w : World) (required excluded : Mask) : List Entity :=
  (liveEntities w.em).filter
    (fun e => queryMatches required excluded (maskAt w.em e.index))

/-! ## pack and unpack.
Declared in world.hpp but implemented outside the provided sources; modelled
from the spec and from the doc comment of world.hpp (unpack removes the
components already present in the entity). -/

/-- World::pack, modelled from the spec: walks the registered component
types and enumerates exactly the components whose mask bits are set, with
their stored values (bit 0 is the reserved liveness sentinel of
World::create, not a component; the spec fixes no enumeration order). -/
def World.pack (w : World) (e : Entity) : List (Nat × Nat) :=
  ((w.cm.map (fun p => p.1)).filter
    (fun t => decide (t ∈ maskAt w.em e.index) && decide (t ≠ 0))).map
    (fun t => (t, (cmGet w.cm t e.index).getD 0))

/-- World::unpack, modelled from the spec: on a valid entity, first removes
every component currently present (keeping only the sentinel bit of the
mask and clearing the entity index from all storages), then adds each
component of the package through World::add — a full replace, not a merge.
Invalid entities are reported and skipped. -/
def World.unpack (w : World) (e : Entity) (p : List (Nat × Nat)) : World :=
  if emIsValid w.em e then
    let cleared : World :=
      ⟨⟨w.em.generations,
        w.em.masks.set e.index ((maskAt w.em e.index).filter (fun t => t = 0)),
        w.em.free⟩,
       cmRemoveAll w.cm e.index, w.rm⟩
    p.foldl (fun acc c => acc.add e [c]) cleared
  else w

/-! ## ConstructibleTrait, from constructible.cpp.
The abstract instance cell is a natural number; a callback is the semantic
function it applies to the cell (reading the other cell too, for the copy
and move constructors).  A null callback pointer is none. -/

/-- ConstructibleTrait: size, alignment, the required destructor and the
three optional constructors (null by default). -/
structure ConstructibleTrait where
  mSize : Nat
  mAlignment : Nat
  mDestructor : Nat → Nat
  mDefaultConstructor : Option (Nat → Nat)
  mCopyConstructor : Option (Nat → Nat → Nat)
  mMoveConstructor : Option (Nat → Nat → Nat)

/-- The ConstructibleTrait constructor from constructible.cpp: asserts, in
order, that the alignment is positive, that it is a power of two (the
bitwise test alignment AND (alignment - 1) == 0), and that the destructor
is non-null.  A failed assert terminates the process, modelled as none. -/
def mkConstructibleTrait (size alignment : Nat)
    (destructor : Option (Nat → Nat)) : Option ConstructibleTrait :=
  if 0 < alignment then
    if alignment &&& (alignment - 1) = 0 then
      match destructor with
      | some d => some ⟨size, alignment, d, none, none, none⟩
      | none => none
    else none
  else none

/-- ConstructibleTrait::size. -/
def ConstructibleTrait.size (t : ConstructibleTrait) : Nat := t.mSize

/-- ConstructibleTrait::alignment. -/
def ConstructibleTrait.alignment (t : ConstructibleTrait) : Nat := t.mAlignment

/-- ConstructibleTrait::destruct: invokes the stored destructor on the
instance cell. -/
def ConstructibleTrait.destruct (t : ConstructibleTrait) (x : Nat) : Nat :=
  t.mDestructor x

/-- ConstructibleTrait::withDefaultConstructor: asserts (modelled as none)
when a default constructor was already set. -/
def ConstructibleTrait.withDefaultConstructor (t : ConstructibleTrait)
    (f : Nat → Nat) : Option ConstructibleTrait :=
  if t.mDefaultConstructor.isSome then none
  else some { t with mDefaultConstructor := some f }

/-- ConstructibleTrait::withCopyConstructor: asserts (modelled as none)
when a copy constructor was already set. -/
def ConstructibleTrait.withCopyConstructor (t : ConstructibleTrait)
    (f : Nat → Nat → Nat) : Option ConstructibleTrait :=
  if t.mCopyConstructor.isSome then none
  else some { t with mCopyConstructor := some f }

/-- ConstructibleTrait::withMoveConstructor: asserts (modelled as none)
when a move constructor was already set. -/
def ConstructibleTrait.withMoveConstructor (t : ConstructibleTrait)
    (f : Nat → Nat → Nat) : Option ConstructibleTrait :=
  if t.mMoveConstructor.isSome then none
  else some { t with mMoveConstructor := some f }

/-- ConstructibleTrait::defaultConstruct: if a default constructor is set,
invoke it on the instance cell and return true; otherwise return false and
leave the cell untouched. -/
def ConstructibleTrait.defaultConstruct (t : ConstructibleTrait) (x : Nat) :
    Bool × Nat :=
  match t.mDefaultConstructor with
  | some f => (true, f x)
  | none => (false, x)

/-- ConstructibleTrait::copyConstruct: if a copy constructor is set, invoke
it on the instance and other cells and return true; otherwise return false
and leave the instance cell untouched. -/
def ConstructibleTrait.copyConstruct (t : ConstructibleTrait) (x other : Nat) :
    Bool × Nat :=
  match t.mCopyConstructor with
  | some f => (true, f x other)
  | none => (false, x)

/-- ConstructibleTrait::moveConstruct: if a move constructor is set, invoke
it on the instance and other cells and return true; otherwise return false
and leave the instance cell untouched. -/
def ConstructibleTrait.moveConstruct (t : ConstructibleTrait) (x other : Nat) :
    Bool × Nat :=
  match t.mMoveConstructor with
  | some f => (true, f x other)
  | none => (false, x)

/-! ## The bitwise power-of-two test of the ConstructibleTrait constructor. -/

theorem land_self (m : Nat) : m &&& m = m := by
  apply Nat.eq_of_testBit_eq
  intro i
  rw [Nat.testBit_land]
  cases m.testBit i <;> simp

theorem land_odd_even (m n : Nat) : (2 * m + 1) &&& (2 * n) = 2 * (m &&& n) := by
  apply Nat.eq_of_testBit_eq
  intro i
  rw [Nat.testBit_land]
  cases i with
  | zero =>
    rw [Nat.testBit_zero, Nat.testBit_zero, Nat.testBit_zero]
    have h1 : (2 * m + 1) % 2 = 1 := by omega
    have h2 : (2 * n) % 2 = 0 := by omega
    have h3 : (2 * (m &&& n)) % 2 = 0 := by omega
    simp [h1, h2, h3]
  | succ i =>
    rw [Nat.testBit_succ, Nat.testBit_succ, Nat.testBit_succ]
    have h1 : (2 * m + 1) / 2 = m := by omega
    have h2 : (2 * n) / 2 = n := by omega
    have h3 : (2 * (m &&& n)) / 2 = m &&& n := by omega
    rw [h1, h2, h3, Nat.testBit_land]

theorem land_even_odd (m n : Nat) : (2 * m) &&& (2 * n + 1) = 2 * (m &&& n) := by
  apply Nat.eq_of_testBit_eq
  intro i
  rw [Nat.testBit_land]
  cases i with
  | zero =>
    rw [Nat.testBit_zero, Nat.testBit_zero, Nat.testBit_zero]
    have h1 : (2 * m) % 2 = 0 := by omega
    have h2 : (2 * (m &&& n)) % 2 = 0 := by omega
    simp [h1, h2]
  | succ i =>
    rw [Nat.testBit_succ, Nat.testBit_succ, Nat.testBit_succ]
    have h1 : (2 * m) / 2 = m := by omega
    have h2 : (2 * n + 1) / 2 = n := by omega
    have h3 : (2 * (m &&& n)) / 2 = m &&& n := by omega
    rw [h1, h2, h3, Nat.testBit_land]

/-- A power of two passes the bitwise test of the constructor. -/
theorem pow_two_land_pred (k : Nat) : 2 ^ k &&& (2 ^ k - 1) = 0 := by
  apply Nat.eq_of_testBit_eq
  intro i
  rw [Nat.testBit_land, Nat.zero_testBit, Nat.testBit_two_pow,
    Nat.testBit_two_pow_sub_one]
  by_cases h : k = i
  · subst h
    simp
  · simp [h]

/-- A positive number passing the bitwise test is a power of two. -/
theorem land_pred_isPowerOfTwo (a : Nat) :
    0 < a → a &&& (a - 1) = 0 → a.isPowerOfTwo := by
  induction a using Nat.strong_induction_on with
  | _ a ih =>
    intro h0 h
    rcases Nat.even_or_odd a with he | ho
    · obtain ⟨m, hm⟩ := he
      have hm2 : a = 2 * m := by omega
      have hmpos : 0 < m := by omega
      have hsub : a - 1 = 2 * (m - 1) + 1 := by omega
      rw [hsub, hm2, land_even_odd] at h
      have h2 : m &&& (m - 1) = 0 := by omega
      obtain ⟨k, hk⟩ := ih m (by omega) hmpos h2
      exact ⟨k + 1, by rw [hm2, hk, pow_succ]; ring⟩
    · obtain ⟨m, hm⟩ := ho
      have hsub : a - 1 = 2 * m := by omega
      rw [hsub, hm, land_odd_even, land_self] at h
      have ha1 : a = 1 := by omega
      exact ⟨0, by simp [ha1]⟩

/-! ## The claims. -/

/-- C1: for every sequence of World operations on a world with registered
component types (ids at least 1), and every alive entity and registered
component id, World::has returns true iff the component storage contains an
entry for the entity index: the mask bit and the storage entry never
diverge. -/
theorem mask_storage_consistency (ops : List Op) (e : Entity) (t : Nat)
    (halive : (run ops).1.isAlive e = true) (ht : 1 ≤ t) :
    ((run ops).1.has e t = true ↔ cmHas (run ops).1.cm t e.index = true) := by
  have hw := winv_run ops
  have hv : emIsValid (run ops).1.em e = true := halive
  simp only [World.has, hv, if_true, decide_eq_true_eq]
  exact hw.agree e.index t ht

theorem mask_storage_consistency_witness :
    (run [Op.create [(1, 5)]]).1.isAlive ⟨0, 0⟩ = true ∧ 1 ≤ 1 ∧
      ((run [Op.create [(1, 5)]]).1.has ⟨0, 0⟩ 1 = true ↔
        cmHas (run [Op.create [(1, 5)]]).1.cm 1 0 = true) :=
  ⟨by decide, by decide,
   mask_storage_consistency [Op.create [(1, 5)]] ⟨0, 0⟩ 1 (by decide) (by decide)⟩

/-- The mask computed by World::create, read back from the entity manager:
always the ids of the components together with the sentinel bit 0 coming
from the literal 0 heading the ids array in world.hpp. -/
theorem create_mask_eq (w : World) (comps : List (Nat × Nat))
    (hlen : w.em.masks.length = w.em.generations.length)
    (hfree_lt : ∀ i ∈ w.em.free, i < w.em.generations.length) :
    maskAt (w.create comps).2.em (w.create comps).1.index =
      (0 :: comps.map (fun c => c.1)).foldl (fun m id => insert id m) ∅ := by
  cases hfree : w.em.free with
  | nil =>
    simp only [World.create, emCreate, hfree]
    show (w.em.masks ++
        [(0 :: comps.map (fun c => c.1)).foldl (fun m id => insert id m) (∅ : Mask)]).getD
        w.em.generations.length ∅ = _
    rw [← hlen]
    exact getD_append_self _ _ _
  | cons i0 rest =>
    have hi0 : i0 < w.em.generations.length :=
      hfree_lt i0 (by rw [hfree]; exact List.mem_cons_self _ _)
    simp only [World.create, emCreate, hfree]
    show (w.em.masks.set i0
        ((0 :: comps.map (fun c => c.1)).foldl (fun m id => insert id m) (∅ : Mask))).getD
        i0 ∅ = _
    exact getD_set_self _ _ _ _ (hlen ▸ hi0)

/-- C2 counterexample: World::create with no components does not produce an
empty mask — the sentinel 0 heading the ids array of world.hpp always sets
bit 0. -/
theorem create_empty_mask_not_empty :
    maskAt (World.init.create []).2.em (World.init.create []).1.index ≠ ∅ := by
  decide

/-- C2 (amended): on every reachable world, the mask stored for the entity
created by World::create is exactly the union of the component ids of its
arguments plus the always-set sentinel bit 0; in particular create with no
components yields exactly bit 0. -/
theorem create_mask_amended (ops : List Op) (comps : List (Nat × Nat)) (t : Nat) :
    (t ∈ maskAt ((run ops).1.create comps).2.em ((run ops).1.create comps).1.index ↔
      t = 0 ∨ t ∈ comps.map (fun c => c.1)) := by
  have hw := winv_run ops
  rw [create_mask_eq (run ops).1 comps hw.len_eq hw.free_lt, mem_foldl_insert]
  simp

/-- C3: on an invalid entity handle (stale generation or out-of-range
index), World::add and World::remove report an error and leave the world
unchanged, and World::has reports an error and returns false. -/
theorem invalid_entity_safe (w : World) (e : Entity) (comps : List (Nat × Nat))
    (tids : List Nat) (t : Nat) (hdead : w.isAlive e = false) :
    w.add e comps = w ∧ w.remove e tids = w ∧ w.has e t = false := by
  have hv : emIsValid w.em e = false := hdead
  refine ⟨?_, ?_, ?_⟩ <;>
    simp only [World.add, World.remove, World.has, hv, Bool.false_eq_true, if_false]

theorem invalid_entity_safe_witness :
    World.init.isAlive ⟨0, 0⟩ = false ∧
      (World.init.add ⟨0, 0⟩ [(1, 2)] = World.init ∧
        World.init.remove ⟨0, 0⟩ [1] = World.init ∧
        World.init.has ⟨0, 0⟩ 1 = false) :=
  ⟨by decide, invalid_entity_safe World.init ⟨0, 0⟩ [(1, 2)] [1] 1 (by decide)⟩

/-- The query example of the spec: four entities with masks AB, A, B and AC,
where A, B, C are the component ids 1, 2, 3. -/
def queryExampleOps : List Op :=
  [Op.create [(1, 10), (2, 20)], Op.create [(1, 11)], Op.create [(2, 21)],
   Op.create [(1, 12), (3, 30)]]

/-- C4: a query visits live entities in index order and an entity with mask
M matches iff (M AND required) = required and (M AND excluded) = 0; in
particular, over entities with masks AB, A, B, AC, requiring A and excluding
C matches exactly the AB and A entities (indices 0 and 1). -/
theorem query_semantics (w : World) (required excluded : Mask) :
    (∀ e, e ∈ queryRun w required excluded ↔
      (e ∈ liveEntities w.em ∧
        maskAt w.em e.index ∩ required = required ∧
        maskAt w.em e.index ∩ excluded = ∅)) ∧
    (queryRun w required excluded).Pairwise (fun a b => a.index < b.index) ∧
    queryRun (run queryExampleOps).1 {1} {3} = [⟨0, 0⟩, ⟨1, 0⟩] := by
  refine ⟨?_, ?_, by decide⟩
  · intro e
    rw [queryRun, List.mem_filter]
    simp [queryMatches]
  · have hlive : (liveEntities w.em).Pairwise (fun a b => a.index < b.index) := by
      unfold liveEntities
      apply List.Pairwise.filterMap
        (fun i => if i ∈ w.em.free then none else some (Entity.mk i (genAt w.em i)))
      · intro a a2 hlt b hb b2 hb2
        by_cases ha : a ∈ w.em.free
        · simp [ha] at hb
        · by_cases ha2 : a2 ∈ w.em.free
          · simp [ha2] at hb2
          · simp [ha] at hb
            simp [ha2] at hb2
            rw [← hb, ← hb2]
            exact hlt
      · exact List.pairwise_lt_range _
    exact List.Pairwise.sublist (List.filter_sublist _) hlive

/-- C5: an entity handle is alive iff its generation equals the stored
generation for its index; after destroy and a create reusing the index, the
old handle is dead and the new handle is alive. -/
theorem generation_safety (w : World) (e : Entity) (comps : List (Nat × Nat))
    (halive : w.isAlive e = true) :
    (∀ e2 : Entity, w.isAlive e2 = true ↔
        (e2.index < w.em.generations.length ∧ genAt w.em e2.index = e2.generation)) ∧
    ((w.destroy e).create comps).1.index = e.index ∧
    (w.destroy e).isAlive e = false ∧
    ((w.destroy e).create comps).2.isAlive e = false ∧
    ((w.destroy e).create comps).2.isAlive ((w.destroy e).create comps).1 = true := by
  have hv : emIsValid w.em e = true := halive
  obtain ⟨hlt, hgen⟩ := (emIsValid_iff w.em e).mp hv
  have hg3 : ∀ (ms : List Mask) (fr : List Nat),
      genAt ⟨w.em.generations.set e.index (genAt w.em e.index + 1), ms, fr⟩
          e.index = genAt w.em e.index + 1 :=
    fun ms fr => getD_set_self _ _ _ _ hlt
  have hd : w.destroy e =
      ⟨⟨w.em.generations.set e.index (genAt w.em e.index + 1),
        w.em.masks.set e.index ∅, e.index :: w.em.free⟩,
       cmRemoveAll w.cm e.index, w.rm⟩ := by
    simp only [World.destroy, hv, if_true]
  have hcw : ((w.destroy e).create comps).2 =
      ⟨⟨w.em.generations.set e.index (genAt w.em e.index + 1),
        (w.em.masks.set e.index ∅).set e.index
          ((0 :: comps.map (fun c => c.1)).foldl (fun m id => insert id m) ∅),
        w.em.free⟩,
       comps.foldl (fun cm c => cmAdd cm c.1 e.index c.2)
         (cmRemoveAll w.cm e.index), w.rm⟩ := by
    rw [hd]
    rfl
  have hc : ((w.destroy e).create comps).1 =
      ⟨e.index, genAt w.em e.index + 1⟩ := by
    rw [hd,
      show (World.create ⟨⟨w.em.generations.set e.index (genAt w.em e.index + 1),
          w.em.masks.set e.index ∅, e.index :: w.em.free⟩,
          cmRemoveAll w.cm e.index, w.rm⟩ comps).1 =
        (⟨e.index, genAt ⟨w.em.generations.set e.index (genAt w.em e.index + 1),
          w.em.masks.set e.index ∅, e.index :: w.em.free⟩ e.index⟩ : Entity)
        from rfl,
      hg3]
  refine ⟨fun e2 => emIsValid_iff w.em e2, ?_, ?_, ?_, ?_⟩
  · rw [hc]
  · rw [hd]
    simp only [World.isAlive, emIsValid, hg3, ← hgen]
    simp
  · rw [hcw]
    simp only [World.isAlive, emIsValid, hg3, ← hgen]
    simp
  · rw [hc, hcw]
    simp only [World.isAlive, emIsValid, hg3]
    simp [List.length_set, hlt]

theorem generation_safety_witness :
    (run [Op.create []]).1.isAlive ⟨0, 0⟩ = true ∧
      ((((run [Op.create []]).1.destroy ⟨0, 0⟩).create [(1, 5)]).1.index = 0 ∧
        ((run [Op.create []]).1.destroy ⟨0, 0⟩).isAlive ⟨0, 0⟩ = false ∧
        (((run [Op.create []]).1.destroy ⟨0, 0⟩).create [(1, 5)]).2.isAlive
          ⟨0, 0⟩ = false ∧
        (((run [Op.create []]).1.destroy ⟨0, 0⟩).create [(1, 5)]).2.isAlive
          ((((run [Op.create []]).1.destroy ⟨0, 0⟩).create [(1, 5)]).1) = true) :=
  ⟨by decide, (generation_safety (run [Op.create []]).1 ⟨0, 0⟩ [(1, 5)] (by decide)).2⟩

/-- The pack/unpack example: an entity holding components X = 1 and Y = 2,
plus a fresh entity with no components. -/
def packExampleOps : List Op :=
  [Op.create [(1, 10), (2, 20)], Op.create []]

/-- Membership of a component id among the registered ids follows from a
storage entry being present for it. -/
theorem cmHas_mem_keys (cm : ComponentManager) (t i : Nat)
    (h : cmHas cm t i = true) : t ∈ cm.map (fun p => p.1) := by
  induction cm with
  | nil => simp [cmHas, cmStorage, cmFind, storageGet] at h
  | cons p cm ih =>
    by_cases hp : p.1 = t
    · exact List.mem_cons.mpr (Or.inl hp.symm)
    · refine List.mem_cons.mpr (Or.inr (ih ?_))
      simpa [cmHas, cmStorage, cmFind, hp] using h

/-- C6: pack enumerates exactly the components whose mask bits are set (on
every reachable world and any component id); unpack clears the current
components before applying the package: on the example, unpacking pack of
the X,Y entity onto the fresh entity reproduces exactly its mask with equal
stored values, and unpacking a package holding only X onto the X,Y entity
removes Y. -/
theorem pack_unpack_spec (ops : List Op) (e : Entity) (t : Nat) (ht : 1 ≤ t) :
    (t ∈ ((run ops).1.pack e).map (fun c => c.1) ↔
      t ∈ maskAt (run ops).1.em e.index) ∧
    (maskAt ((run packExampleOps).1.unpack ⟨1, 0⟩
        ((run packExampleOps).1.pack ⟨0, 0⟩)).em 1 =
      maskAt (run packExampleOps).1.em 0 ∧
      cmGet ((run packExampleOps).1.unpack ⟨1, 0⟩
        ((run packExampleOps).1.pack ⟨0, 0⟩)).cm 1 1 = some 10 ∧
      cmGet ((run packExampleOps).1.unpack ⟨1, 0⟩
        ((run packExampleOps).1.pack ⟨0, 0⟩)).cm 2 1 = some 20) ∧
    (((run packExampleOps).1.unpack ⟨0, 0⟩ [(1, 99)]).has ⟨0, 0⟩ 1 = true ∧
      ((run packExampleOps).1.unpack ⟨0, 0⟩ [(1, 99)]).has ⟨0, 0⟩ 2 = false) := by
  refine ⟨?_, by decide, by decide⟩
  have hw := winv_run ops
  rw [World.pack, List.map_map]
  constructor
  · intro hmem
    simp only [List.mem_map, List.mem_filter, Function.comp] at hmem
    obtain ⟨u, ⟨_, hu2⟩, hu3⟩ := hmem
    rw [← hu3]
    simp only [Bool.and_eq_true, decide_eq_true_eq] at hu2
    exact hu2.1
  · intro hmem
    have hhas : cmHas (run ops).1.cm t e.index = true :=
      (hw.agree e.index t ht).mp hmem
    refine List.mem_map.mpr ⟨t, List.mem_filter.mpr ⟨?_, ?_⟩, rfl⟩
    · exact cmHas_mem_keys _ _ _ hhas
    · simp only [Bool.and_eq_true, decide_eq_true_eq]
      exact ⟨hmem, by omega⟩

theorem pack_unpack_spec_witness :
    1 ≤ 1 ∧
      (1 ∈ ((run packExampleOps).1.pack ⟨0, 0⟩).map (fun c => c.1) ↔
        1 ∈ maskAt (run packExampleOps).1.em 0) :=
  ⟨by decide, (pack_unpack_spec packExampleOps ⟨0, 0⟩ 1 (by decide)).1⟩

/-- C7: registering a resource type twice is a no-op that reports an error
and keeps the first registered instance: both read and write still yield
the instance registered first. -/
theorem resource_register_twice (w : World) (t v1 v2 : Nat)
    (hnew : rmFind w.rm t = none) :
    (w.registerResource t v1).registerResource t v2 = w.registerResource t v1 ∧
    ((w.registerResource t v1).registerResource t v2).readResource t = some v1 ∧
    ((w.registerResource t v1).registerResource t v2).writeResource t = some v1 := by
  have h1 : rmAdd w.rm t v1 = (t, v1) :: w.rm := by
    simp [rmAdd, hnew]
  have h2 : rmFind (rmAdd w.rm t v1) t = some v1 := by
    rw [h1]
    simp [rmFind]
  have h3 : rmAdd (rmAdd w.rm t v1) t v2 = rmAdd w.rm t v1 := by
    rw [rmAdd, h2]
    simp
  refine ⟨?_, ?_, ?_⟩
  · simp [World.registerResource, h3]
  · simp [World.registerResource, World.readResource, h3, h2]
  · simp [World.registerResource, World.writeResource, h3, h2]

theorem resource_register_twice_witness :
    rmFind World.init.rm 3 = none ∧
      ((World.init.registerResource 3 7).registerResource 3 8 =
          World.init.registerResource 3 7 ∧
        ((World.init.registerResource 3 7).registerResource 3 8).readResource 3 =
          some 7 ∧
        ((World.init.registerResource 3 7).registerResource 3 8).writeResource 3 =
          some 7) :=
  ⟨by decide, resource_register_twice World.init 3 7 8 (by decide)⟩

/-- C8: the ConstructibleTrait constructor asserts (terminates, modelled as
none) on a zero alignment, on a positive non-power-of-two alignment and on a
null destructor; when the alignment is a positive power of two and the
destructor non-null, construction succeeds and size, alignment and
destructor are stored unchanged, returned verbatim by size, alignment and
used by destruct. -/
theorem constructible_ctor_contract (s a : Nat) (d0 : Option (Nat → Nat))
    (d : Nat → Nat) :
    (mkConstructibleTrait s 0 d0 = none) ∧
    (0 < a → ¬a.isPowerOfTwo → mkConstructibleTrait s a d0 = none) ∧
    (mkConstructibleTrait s a none = none) ∧
    (a.isPowerOfTwo →
      (mkConstructibleTrait s a (some d) =
          some ⟨s, a, d, none, none, none⟩ ∧
        (⟨s, a, d, none, none, none⟩ : ConstructibleTrait).size = s ∧
        (⟨s, a, d, none, none, none⟩ : ConstructibleTrait).alignment = a ∧
        ∀ x, (⟨s, a, d, none, none, none⟩ : ConstructibleTrait).destruct x = d x)) := by
  refine ⟨?_, ?_, ?_, ?_⟩
  · simp [mkConstructibleTrait]
  · intro h0 hnp
    rw [mkConstructibleTrait.eq_def, if_pos h0, if_neg]
    intro hl
    exact hnp (land_pred_isPowerOfTwo a h0 hl)
  · rw [mkConstructibleTrait.eq_def]
    by_cases h0 : 0 < a
    · rw [if_pos h0]
      by_cases hl : a &&& (a - 1) = 0
      · rw [if_pos hl]
      · rw [if_neg hl]
    · rw [if_neg h0]
  · intro hpow
    have h0 : 0 < a := Nat.pos_of_isPowerOfTwo hpow
    obtain ⟨k, hk⟩ := hpow
    have hl : a &&& (a - 1) = 0 := by
      rw [hk]
      exact pow_two_land_pred k
    refine ⟨?_, rfl, rfl, fun x => rfl⟩
    rw [mkConstructibleTrait.eq_def, if_pos h0, if_pos hl]

theorem constructible_ctor_contract_witness :
    Nat.isPowerOfTwo 8 ∧
      mkConstructibleTrait 4 8 (some (fun x => x)) =
        some ⟨4, 8, fun x => x, none, none, none⟩ :=
  ⟨⟨3, rfl⟩,
   ((constructible_ctor_contract 4 8 none (fun x => x)).2.2.2 ⟨3, rfl⟩).1⟩

/-- C9: for an alive entity, World::has is decided solely by testing the
component id bit of the mask held by the entity manager — replacing the
whole component manager does not change its result. -/
theorem has_only_reads_mask (w : World) (e : Entity) (t : Nat)
    (cm2 : ComponentManager) (halive : w.isAlive e = true) :
    World.has ⟨w.em, cm2, w.rm⟩ e t = w.has e t ∧
      w.has e t = decide (t ∈ maskAt w.em e.index) := by
  have hv : emIsValid w.em e = true := halive
  exact ⟨rfl, by simp only [World.has, hv, if_true]⟩

theorem has_only_reads_mask_witness :
    (run [Op.create [(1, 5)]]).1.isAlive ⟨0, 0⟩ = true ∧
      (World.has ⟨(run [Op.create [(1, 5)]]).1.em, [], (run [Op.create [(1, 5)]]).1.rm⟩
          ⟨0, 0⟩ 1 = (run [Op.create [(1, 5)]]).1.has ⟨0, 0⟩ 1 ∧
        (run [Op.create [(1, 5)]]).1.has ⟨0, 0⟩ 1 =
          decide (1 ∈ maskAt (run [Op.create [(1, 5)]]).1.em 0)) :=
  ⟨by decide,
   has_only_reads_mask (run [Op.create [(1, 5)]]).1 ⟨0, 0⟩ 1 [] (by decide)⟩

/-- C10: defaultConstruct, copyConstruct and moveConstruct return true and
invoke the stored callback iff one was set (otherwise false, instance cell
untouched), and each with* setter asserts (none) when its callback was
already set. -/
theorem constructible_optional_ctors (t : ConstructibleTrait) (x other : Nat)
    (f : Nat → Nat) (g h : Nat → Nat → Nat) :
    (t.defaultConstruct x =
      (t.mDefaultConstructor.isSome,
        (t.mDefaultConstructor.map (fun f => f x)).getD x)) ∧
    (t.copyConstruct x other =
      (t.mCopyConstructor.isSome,
        (t.mCopyConstructor.map (fun f => f x other)).getD x)) ∧
    (t.moveConstruct x other =
      (t.mMoveConstructor.isSome,
        (t.mMoveConstructor.map (fun f => f x other)).getD x)) ∧
    (t.withDefaultConstructor f =
      if t.mDefaultConstructor.isSome then none
      else some { t with mDefaultConstructor := some f }) ∧
    (t.withCopyConstructor g =
      if t.mCopyConstructor.isSome then none
      else some { t with mCopyConstructor := some g }) ∧
    (t.withMoveConstructor h =
      if t.mMoveConstructor.isSome then none
      else some { t with mMoveConstructor := some h }) := by
  refine ⟨?_, ?_, ?_, rfl, rfl, rfl⟩
  · cases hd : t.mDefaultConstructor <;>
      simp [ConstructibleTrait.defaultConstruct, hd]
  · cases hd : t.mCopyConstructor <;>
      simp [ConstructibleTrait.copyConstruct, hd]
  · cases hd : t.mMoveConstructor <;>
      simp [ConstructibleTrait.moveConstruct, hd]

end Cubos
